import Mathlib

/-!
Verification development for the Notion fetch/sync core (`fetch-notion.mjs`).

The source's functions are shallowly embedded as executable Lean definitions:

* ISO-8601 timestamps are modelled as integer milliseconds (`Int`), the value
  of `Date.prototype.getTime`; lexicographic comparison of the source's
  same-format ISO strings agrees with numeric comparison of these integers.
* JavaScript objects used as string-keyed dictionaries (`state.images`,
  `state.pages`, `Map`) are modelled as association lists with
  insertion-order-preserving upsert (`aupsert`), matching JS property /
  `Map.set` semantics.
* The filesystem visible to the cache is a map from ROOT-relative path to
  byte content (`List Nat`); `fs.existsSync` / `fs.writeFileSync` become
  lookups and guarded inserts on it.
* External building blocks that are not code of this repository are passed in
  as explicit function parameters: Node's `crypto` SHA-1 (`sha1hex`), the
  WHATWG URL parser's `pathname` accessor (`urlPathname`), the network fetch
  outcome (`FetchOutcome`), and the remote query's row set.  All theorems
  hold for every instantiation of these parameters.
* JS truthiness on strings (`if (!url)`, `a || b`) is modelled by
  `strTruthy` / `jsOr`.
-/

/-- Association-list lookup, modelling `obj[key]` / `Map.get`. -/
def alookup {β : Type} : List (String × β) → String → Option β
  | [], _ => none
  | kv :: rest, k => if kv.1 = k then some kv.2 else alookup rest k

/-- Association-list update-or-append, modelling `obj[key] = v` / `Map.set`:
an existing key is overwritten in place, a new key is appended. -/
def aupsert {β : Type} : List (String × β) → String → β → List (String × β)
  | [], k, v => [(k, v)]
  | kv :: rest, k, v => if kv.1 = k then (k, v) :: rest else kv :: aupsert rest k v

/-- JS truthiness of a string-valued expression: the empty string and
null/undefined are falsy. -/
def strTruthy (o : Option String) : Option String :=
  match o with
  | some s => if s = "" then none else some s
  | none => none

/-- JS `a || b || null` over string-valued operands. -/
def jsOr (a b : Option String) : Option String :=
  match strTruthy a with
  | some x => some x
  | none => strTruthy b

/-- Hex-digit test matching the character class `[0-9a-fA-F]`. -/
def isHexChar (c : Char) : Bool :=
  (decide ('0' ≤ c) && decide (c ≤ '9')) ||
  (decide ('a' ≤ c) && decide (c ≤ 'f')) ||
  (decide ('A' ≤ c) && decide (c ≤ 'F'))

/-- JS `String.prototype.trim`, on the character list of the string. -/
def jsTrim (s : List Char) : List Char :=
  ((s.dropWhile Char.isWhitespace).reverse.dropWhile Char.isWhitespace).reverse

/-- Whether a match of `/[0-9a-fA-F]{32}/` starts at the head of `s`. -/
def hex32Here (s : List Char) : Bool :=
  decide (32 ≤ s.length) && (s.take 32).all isHexChar

/-- Leftmost match of the regex `/[0-9a-fA-F]{32}/`: the first position at
which 32 consecutive hex characters start, as in `s.match(...)`. -/
def findHex32 : List Char → Option (List Char)
  | [] => none
  | c :: cs => if hex32Here (c :: cs) then some ((c :: cs).take 32) else findHex32 cs

/-- JS global replacement deleting every hyphen from the string. -/
def stripDashes (s : List Char) : List Char :=
  s.filter (fun c => decide (c ≠ '-'))

/-- Embedding of `normalizeId` (fetch-notion.mjs lines 67-74): falsy input is
null; otherwise trim, search for a 32-hex substring, fall back to stripping
hyphens, and return the lowercased result iff it has length exactly 32. -/
def normalizeId (input : List Char) : Option (List Char) :=
  if input.isEmpty then none
  else
    let s := jsTrim input
    let raw :=
      match findHex32 s with
      | some m => m
      | none => stripDashes s
    if raw.length = 32 then some (raw.map Char.toLower) else none

/-- Backoff delay the source computes after the `n`-th consecutive failure:
`Math.min(2500, 250 * 2 ** (n - 1))`. -/
def backoffDelay (n : Nat) : Nat :=
  min 2500 (250 * 2 ^ (n - 1))

/-- Loop body of `withRetry` (fetch-notion.mjs lines 47-64).  `attempt i` is
the outcome of the `i`-th call of `fn` (0-based); `n` counts failures so far;
`fuel` is a structural bound never consumed while `n + 1 < tries` holds, so
with `fuel = tries` it reproduces the source's unbounded `while (true)`.
Returns the final outcome together with the list of delays actually slept. -/
def withRetryGo {ε α : Type} (attempt : Nat → Except ε α) (tries fuel n : Nat) :
    Except ε α × List Nat :=
  match attempt n with
  | Except.ok a => (Except.ok a, [])
  | Except.error e =>
    let wait := backoffDelay (n + 1)
    if tries ≤ n + 1 then (Except.error e, [])
    else
      match fuel with
      | 0 => (Except.error e, [])
      | fuel' + 1 =>
        let r := withRetryGo attempt tries fuel' (n + 1)
        (r.1, wait :: r.2)

/-- Embedding of `withRetry` with its default of 5 tries. -/
def withRetry {ε α : Type} (attempt : Nat → Except ε α) (tries : Nat) :
    Except ε α × List Nat :=
  withRetryGo attempt tries tries 0

/-- Embedding of `isoMinusMinutes` (fetch-notion.mjs lines 92-96) on
millisecond timestamps: null stays null, otherwise subtract `mins` minutes. -/
def isoMinusMinutes (iso : Option Int) (mins : Int) : Option Int :=
  match iso with
  | none => none
  | some t => some (t - mins * 60 * 1000)

/-- The incremental lower bound `main` passes to the collection syncs
(fetch-notion.mjs lines 338-339): null in full mode (forced flag or missing
watermark), otherwise the last watermark minus the 2-minute safety margin. -/
def mainSinceISO (lastSyncISO : Option Int) (fullRecFlag : Bool) : Option Int :=
  if fullRecFlag || lastSyncISO.isNone then none else isoMinusMinutes lastSyncISO 2

/-- Asset-cache record, the value stored in `state.images[key]`
(fetch-notion.mjs lines 139-145).  `loc` models the JSON field `local`. -/
structure AssetRecord where
  loc : String
  hash : String
  size : Nat
  updated : Int
  last_url : String
deriving DecidableEq

/-- Outcome of the one `fetch(url)` call a cache miss performs: a 2xx body,
a non-ok HTTP status, or a thrown network error. -/
inductive FetchOutcome where
  | ok (body : List Nat)
  | httpError (status : Nat)
  | networkError
deriving DecidableEq

/-- Result of one `downloadFileCached` call: its return value, the updated
`state.images`, the updated image directory, whether `fetch` was invoked,
and whether `writeFileSync` ran. -/
structure DlResult where
  ret : Option String
  images : List (String × AssetRecord)
  files : List (String × List Nat)
  fetched : Bool
  wrote : Bool
deriving DecidableEq

/-- `fs.existsSync` on the modelled image directory (paths ROOT-relative). -/
def fsExists (files : List (String × List Nat)) (p : String) : Bool :=
  (alookup files p).isSome

/-- `fs.writeFileSync` on the modelled image directory. -/
def fsWrite (files : List (String × List Nat)) (p : String) (b : List Nat) :
    List (String × List Nat) :=
  aupsert files p b

/-- JS `String.prototype.split` with a single-character separator, on the
character list of the string. -/
def splitOnChar (sep : Char) : List Char → List (List Char)
  | [] => [[]]
  | x :: xs =>
    match splitOnChar sep xs with
    | [] => [[]]
    | h :: t => if x = sep then [] :: h :: t else (x :: h) :: t

/-- The source's `cached.local.startsWith('./') ? cached.local.slice(2) :
cached.local`, turning a stored `./images/x` path into the ROOT-relative
path the existence check uses. -/
def stripDotSlash (s : String) : String :=
  if s.toList.take 2 = [ '.', '/' ] then String.mk (s.toList.drop 2) else s

/-- Embedding of `safeExtFromUrl` (fetch-notion.mjs lines 99-108).
`urlPathname` stands for the WHATWG `new URL(u).pathname` (an external
builtin, not repository code); `none` models the constructor throwing, which
the source catches by returning the fallback.  The rest mirrors the source:
last dot-separated segment (`p.split('.').pop()`), cut at a question mark,
rejected when empty or longer than 6 characters. -/
def safeExtFromUrl (urlPathname : String → Option String) (u : String)
    (fallback : String) : String :=
  match urlPathname u with
  | none => fallback
  | some p =>
    let ext := (splitOnChar '?' ((splitOnChar '.' p.toList).getLastD [])).headD []
    if ext = [] ∨ 6 < ext.length then fallback else String.mk ext

/-- JS truthiness of `cached?.local` lifted to the optional record. -/
def optLocal (c : Option AssetRecord) : Option String :=
  strTruthy (c.map AssetRecord.loc)

/-- Download branch of `downloadFileCached` (fetch-notion.mjs lines 124-150):
the `try { fetch ... } catch` block.  `sha1hex` stands for Node's
`crypto.createHash('sha1')` hex digest (an external builtin, not repository
code).  On a non-ok status or a thrown error the prior cached path (or null)
is returned and nothing is modified; on success the content-hash-derived
name is computed, the file is written only if absent, and the key's record
is replaced. -/
def dlFetch (sha1hex : List Nat → String) (urlPathname : String → Option String)
    (now : Int) (outcome : FetchOutcome) (key u fnameHint : String)
    (cached : Option AssetRecord) (images : List (String × AssetRecord))
    (files : List (String × List Nat)) : DlResult :=
  match outcome with
  | FetchOutcome.httpError _ => ⟨optLocal cached, images, files, true, false⟩
  | FetchOutcome.networkError => ⟨optLocal cached, images, files, true, false⟩
  | FetchOutcome.ok buf =>
    let hash := sha1hex buf
    let ext := safeExtFromUrl urlPathname u "bin"
    let name := fnameHint ++ "-" ++ String.mk (hash.toList.take 12) ++ "." ++ ext
    let localRel := "./images/" ++ name
    let dst := "images/" ++ name
    let already := fsExists files dst
    ⟨some localRel,
     aupsert images key ⟨localRel, "sha1:" ++ hash, buf.length, now, u⟩,
     if already then files else fsWrite files dst buf,
     true,
     !already⟩

/-- Embedding of `downloadFileCached` (fetch-notion.mjs lines 112-151).
Falsy `url`: return the cached path (or null) without fetching.  A cached
record whose truthy `local` path still exists on disk: return it without
fetching.  Otherwise run the download branch `dlFetch`. -/
def downloadFileCached (sha1hex : List Nat → String)
    (urlPathname : String → Option String) (now : Int) (outcome : FetchOutcome)
    (key : String) (url : Option String) (fnameHint : String)
    (images : List (String × AssetRecord)) (files : List (String × List Nat)) :
    DlResult :=
  match strTruthy url with
  | none => ⟨optLocal (alookup images key), images, files, false, false⟩
  | some u =>
    match alookup images key with
    | some c =>
      if c.loc ≠ "" ∧ fsExists files (stripDotSlash c.loc) = true then
        ⟨some c.loc, images, files, false, false⟩
      else dlFetch sha1hex urlPathname now outcome key u fnameHint (some c) images files
    | none => dlFetch sha1hex urlPathname now outcome key u fnameHint none images files

/-- Per-page sync state, the value of `state.pages[pageId]`
(fetch-notion.mjs lines 220-223). -/
structure PageState where
  last_edited_time : Int
  cover_local : Option String
deriving DecidableEq

/-- The page metadata `notion.pages.retrieve` returns, reduced to the fields
the sync logic reads. -/
structure PageMeta where
  id : String
  last_edited_time : Int
  coverUrl : Option String
deriving DecidableEq

/-- Result of one `fetchPageIfChanged` call: whether a payload was returned
(false models the `null` return), the updated `state.pages`, the number of
block-tree fetches performed, the number of snapshot files written, and the
`cover_local` placed in the written payload. -/
structure PageSyncResult where
  changed : Bool
  pages : List (String × PageState)
  treeFetches : Nat
  snapshotWrites : Nat
  cover_local : Option String
deriving DecidableEq

/-- Changed branch of `fetchPageIfChanged` (fetch-notion.mjs lines 204-224):
one block-tree fetch, cover resolution (`coverResolve` stands for the
`downloadFileCached` return on the cover URL; when the page has no cover the
source falls back to `state.images[coverKey]?.local || prev?.cover_local ||
null`), one snapshot write, and the `state.pages[pageId]` replacement. -/
def pageLocalCover (coverResolve : Option String) (meta : PageMeta)
    (prev : Option PageState) (images : List (String × AssetRecord)) :
    Option String :=
  match strTruthy meta.coverUrl with
  | some _ => coverResolve
  | none => jsOr ((alookup images ("page:" ++ meta.id ++ ":cover")).map AssetRecord.loc)
      (prev.bind (fun ps => ps.cover_local))

def fetchPageChanged (coverResolve : Option String) (pageId : String)
    (meta : PageMeta) (prev : Option PageState)
    (pages : List (String × PageState)) (images : List (String × AssetRecord)) :
    PageSyncResult :=
  let localCover := pageLocalCover coverResolve meta prev images
  ⟨true,
   aupsert pages pageId ⟨meta.last_edited_time, strTruthy localCover⟩,
   1, 1, localCover⟩

/-- Embedding of `fetchPageIfChanged` (fetch-notion.mjs lines 189-225):
`changed = !prev || (meta.last_edited_time > prev.last_edited_time)`; when
unchanged, return null with no tree fetch, no write and no state change. -/
def fetchPageIfChanged (coverResolve : Option String) (pageId : String)
    (meta : PageMeta) (pages : List (String × PageState))
    (images : List (String × AssetRecord)) : PageSyncResult :=
  match alookup pages pageId with
  | some prev =>
    if prev.last_edited_time < meta.last_edited_time then
      fetchPageChanged coverResolve pageId meta (some prev) pages images
    else ⟨false, pages, 0, 0, none⟩
  | none => fetchPageChanged coverResolve pageId meta none pages images

/-- A database row as the query returns it, reduced to the fields the sync
logic reads; `payload` stands for every other JSON field (properties,
titles, ...), and `cover_local` is the grafted local-cover field, absent
(none) on a freshly fetched API row. -/
structure Row where
  id : String
  last_edited_time : Int
  coverUrl : Option String
  cover_local : Option String
  payload : String
deriving DecidableEq

/-- The `on_or_after` timestamp filter the source puts in the query body
(fetch-notion.mjs lines 232-237); per the API's contract the comparison is
inclusive. -/
def lastEditedOnOrAfter (since t : Int) : Bool :=
  decide (since ≤ t)

/-- Embedding of `queryDatabaseIncremental` (fetch-notion.mjs lines 227-244)
over the remote row set: no filter when `sinceISO` is null, otherwise the
server keeps exactly the rows with `last_edited_time` on or after it. -/
def queryDatabaseIncremental (rows : List Row) (sinceISO : Option Int) : List Row :=
  match sinceISO with
  | none => rows
  | some s => rows.filter (fun r => lastEditedOnOrAfter s r.last_edited_time)

/-- Embedding of `fullIdsInDatabase` (fetch-notion.mjs lines 246-261): the
ids of every current row, from an unfiltered enumeration. -/
def fullIdsInDatabase (allRows : List Row) : List String :=
  allRows.map Row.id

/-- Per-changed-row processing inside `syncDatabase` (fetch-notion.mjs lines
276-304): graft `cover_local` only when the fresh row carries a truthy cover
URL (`coverDl key url` stands for the `downloadFileCached` return), then the
files-property and optional-blocks grafting, which touches only the opaque
payload (`filesDl`). -/
def processChangedRow (coverDl : String → String → Option String)
    (filesDl : String → String) (p : Row) : Row :=
  let p1 :=
    match strTruthy p.coverUrl with
    | some cov => { p with cover_local := coverDl ("page:" ++ p.id ++ ":cover") cov }
    | none => p
  { p1 with payload := filesDl p1.payload }

/-- JS `new Map(pairs)`: insert every pair in order, later pairs
overwriting earlier ones with the same key. -/
def mkMap {β : Type} (l : List (String × β)) : List (String × β) :=
  l.foldl (fun m kv => aupsert m kv.1 kv.2) []

/-- One iteration of the changed-rows loop of `syncDatabase`:
`byId.set(p.id, processed p)` and `state.dbItems[p.id] = stamp`. -/
def dbStep (coverDl : String → String → Option String) (filesDl : String → String)
    (acc : List (String × Row) × List (String × Int)) (p : Row) :
    List (String × Row) × List (String × Int) :=
  (aupsert acc.1 p.id (processChangedRow coverDl filesDl p),
   aupsert acc.2 p.id p.last_edited_time)

/-- Result of one `syncDatabase` call: the persisted `{ results }` rows and
the updated `state.dbItems`. -/
structure DbSyncResult where
  results : List Row
  dbItems : List (String × Int)
deriving DecidableEq

/-- Embedding of `syncDatabase` (fetch-notion.mjs lines 263-322): index the
existing snapshot by id, upsert every changed row wholesale, and only in
full mode delete the ids absent from the separate full enumeration
(`currentIds`), then persist the map's values. -/
def syncDatabase (coverDl : String → String → Option String)
    (filesDl : String → String) (changedRows snapshot : List Row)
    (fullMode : Bool) (currentIds : List String)
    (dbItems : List (String × Int)) : DbSyncResult :=
  let byId0 := mkMap (snapshot.map (fun x => (x.id, x)))
  let acc := changedRows.foldl (dbStep coverDl filesDl) (byId0, dbItems)
  let byId2 :=
    if fullMode then acc.1.filter (fun kv => decide (kv.1 ∈ currentIds))
    else acc.1
  ⟨byId2.map (fun kv => kv.2), acc.2⟩

/-- One unit of work `main` performs (fetch-notion.mjs lines 325-381), in
program order: a page sync, a collection sync, or the final
`saveState(state)` write of the state file. -/
inductive SyncStep where
  | pageSync (pid : List Char) (outAlias : String)
  | dbSync (dbid : List Char) (outName : String)
  | save
deriving DecidableEq

/-- `normalizeId` applied to an optional configured identifier, as `main`
does for each entry of `CFG.notion` (a missing entry is falsy input). -/
def normalizeOpt (o : Option (List Char)) : Option (List Char) :=
  o.bind normalizeId

/-- The step `main` schedules for one configured identifier: present ids
yield one sync step, a missing or malformed id is skipped with a warning. -/
def stepsFor (o : Option (List Char)) (mk : List Char → SyncStep) : List SyncStep :=
  match o with
  | some i => [mk i]
  | none => []

/-- The `notion` section of `site.config.json`, as raw configured strings. -/
structure SiteNotionCfg where
  home_page_id : Option (List Char)
  intro_page_id : Option (List Char)
  culture_page_id : Option (List Char)
  members_db_id : Option (List Char)
  blog_db_id : Option (List Char)

/-- The sequence of work units `main` performs (fetch-notion.mjs lines
325-381): the three page syncs, the two collection syncs, and last the one
`saveState(state)` call. -/
def mainSteps (cfg : SiteNotionCfg) : List SyncStep :=
  stepsFor (normalizeOpt cfg.home_page_id) (fun i => SyncStep.pageSync i "home") ++
  stepsFor (normalizeOpt cfg.intro_page_id) (fun i => SyncStep.pageSync i "introduction") ++
  stepsFor (normalizeOpt cfg.culture_page_id) (fun i => SyncStep.pageSync i "culture") ++
  stepsFor (normalizeOpt cfg.members_db_id) (fun i => SyncStep.dbSync i "members") ++
  stepsFor (normalizeOpt cfg.blog_db_id) (fun i => SyncStep.dbSync i "blog") ++
  [SyncStep.save]

/-- Execution of `main`'s step list over an abstract in-memory `SyncState`
`σ`.  `effect` is how a sync step mutates the in-memory state, `fails` marks
the steps whose uncaught error aborts the run (the `main().catch` path), and
`SyncStep.save` copies the in-memory state to the on-disk state file.
Returns the final in-memory state (none when the run aborted) and the final
on-disk state file. -/
def runSteps {σ : Type} (effect : SyncStep → σ → σ) (fails : SyncStep → Bool) :
    List SyncStep → σ → σ → Option σ × σ
  | [], mem, disk => (some mem, disk)
  | s :: rest, mem, disk =>
    if fails s then (none, disk)
    else
      match s with
      | SyncStep.save => runSteps effect fails rest mem mem
      | _ => runSteps effect fails rest (effect s mem) disk

/-! Helper lemmas about the association-list and scan primitives. -/

theorem alookup_aupsert_self {β : Type} (l : List (String × β)) (k : String) (v : β) :
    alookup (aupsert l k v) k = some v := by
  induction l with
  | nil => simp [aupsert, alookup]
  | cons kv rest ih =>
    by_cases h : kv.1 = k
    · simp [aupsert, h, alookup]
    · simp [aupsert, h, alookup, ih]

theorem alookup_aupsert_ne {β : Type} (l : List (String × β)) (k k' : String) (v : β)
    (h : k' ≠ k) : alookup (aupsert l k v) k' = alookup l k' := by
  induction l with
  | nil => simp [aupsert, alookup, Ne.symm h]
  | cons kv rest ih =>
    by_cases hk : kv.1 = k
    · simp [aupsert, hk, alookup, Ne.symm h]
    · by_cases hk' : kv.1 = k'
      · simp [aupsert, hk, alookup, hk', h]
      · simp [aupsert, hk, alookup, hk', ih]

theorem mem_of_alookup {β : Type} (l : List (String × β)) (k : String) (v : β) :
    alookup l k = some v → (k, v) ∈ l := by
  induction l with
  | nil => intro h; simp [alookup] at h
  | cons kv rest ih =>
    intro h
    by_cases hk : kv.1 = k
    · obtain ⟨a, b⟩ := kv
      simp only at hk
      subst hk
      simp [alookup] at h
      subst h
      exact List.mem_cons_self _ _
    · simp [alookup, hk] at h
      exact List.mem_cons_of_mem _ (ih h)

theorem mem_aupsert_of_ne {β : Type} (l : List (String × β)) (k : String) (v : β)
    (kv : String × β) (hne : kv.1 ≠ k) : kv ∈ l → kv ∈ aupsert l k v := by
  induction l with
  | nil => intro hm; simp at hm
  | cons kv0 rest ih =>
    intro hm
    rcases List.mem_cons.mp hm with hm | hm
    · subst hm
      simp [aupsert, hne]
    · by_cases hk : kv0.1 = k
      · simp only [aupsert, hk, if_pos, List.mem_cons]
        right
        exact hm
      · simp only [aupsert, hk, if_false, List.mem_cons]
        right
        exact ih hm

theorem aupsert_forall {β : Type} (P : String × β → Prop) (l : List (String × β))
    (k : String) (v : β) (hv : P (k, v)) :
    (∀ kv ∈ l, P kv) → ∀ kv ∈ aupsert l k v, P kv := by
  induction l with
  | nil =>
    intro _ kv hm
    simp [aupsert] at hm
    exact hm ▸ hv
  | cons kv0 rest ih =>
    intro hl kv hm
    by_cases hk : kv0.1 = k
    · simp only [aupsert, hk, if_pos, List.mem_cons] at hm
      rcases hm with hm | hm
      · exact hm ▸ hv
      · exact hl kv (List.mem_cons_of_mem _ hm)
    · simp only [aupsert, hk, if_false, List.mem_cons] at hm
      rcases hm with hm | hm
      · exact hm ▸ hl kv0 (List.mem_cons_self _ _)
      · exact ih (fun x hx => hl x (List.mem_cons_of_mem _ hx)) kv hm

theorem alookup_append {β : Type} (l1 l2 : List (String × β)) (k : String) :
    alookup (l1 ++ l2) k =
      (match alookup l1 k with
       | some v => some v
       | none => alookup l2 k) := by
  induction l1 with
  | nil => simp [alookup]
  | cons kv rest ih =>
    by_cases hk : kv.1 = k
    · simp [alookup, hk]
    · simp [alookup, hk, ih]

theorem aupsert_alookup_none {β : Type} (l : List (String × β)) (k : String) (v : β)
    (h : alookup l k = none) : aupsert l k v = l ++ [(k, v)] := by
  induction l with
  | nil => simp [aupsert]
  | cons kv rest ih =>
    by_cases hk : kv.1 = k
    · simp [alookup, hk] at h
    · simp [alookup, hk] at h
      simp [aupsert, hk, ih h]

theorem findHex32_spec (s : List Char) (m : List Char) (h : findHex32 s = some m) :
    m.length = 32 ∧ m.all isHexChar = true := by
  induction s with
  | nil => simp [findHex32] at h
  | cons c cs ih =>
    by_cases hh : hex32Here (c :: cs) = true
    · simp [findHex32, hh] at h
      simp only [hex32Here, Bool.and_eq_true, decide_eq_true_eq] at hh
      subst h
      have h1 := hh.1
      simp only [List.length_cons] at h1
      constructor
      · simp only [List.length_cons, List.length_take]
        omega
      · simpa using hh.2
    · simp [findHex32, hh] at h
      exact ih h

theorem foldl_aupsert_of_disjoint {β : Type} (l : List (String × β)) :
    ∀ acc : List (String × β), (∀ kv ∈ l, alookup acc kv.1 = none) →
      (l.map Prod.fst).Nodup →
      l.foldl (fun m kv => aupsert m kv.1 kv.2) acc = acc ++ l := by
  induction l with
  | nil => intro acc _ _; simp
  | cons kv t ih =>
    intro acc hd hn
    have hstep : aupsert acc kv.1 kv.2 = acc ++ [kv] := by
      have := aupsert_alookup_none acc kv.1 kv.2 (hd kv (List.mem_cons_self _ _))
      simpa using this
    simp only [List.foldl_cons, hstep]
    rw [List.map_cons] at hn
    have hcons := List.nodup_cons.mp hn
    have hd' : ∀ kv' ∈ t, alookup (acc ++ [kv]) kv'.1 = none := by
      intro kv' hm
      rw [alookup_append]
      have h1 : alookup acc kv'.1 = none := hd kv' (List.mem_cons_of_mem _ hm)
      have h2 : kv.1 ≠ kv'.1 := by
        intro heq
        exact hcons.1 (heq ▸ List.mem_map_of_mem Prod.fst hm)
      rw [h1]
      simp [alookup, h2]
    rw [ih (acc ++ [kv]) hd' hcons.2]
    simp

theorem mkMap_self {β : Type} (l : List (String × β)) (hn : (l.map Prod.fst).Nodup) :
    mkMap l = l := by
  have := foldl_aupsert_of_disjoint l [] (by intro kv _; simp [alookup]) hn
  simpa [mkMap] using this

theorem processChangedRow_id (coverDl : String → String → Option String)
    (filesDl : String → String) (p : Row) :
    (processChangedRow coverDl filesDl p).id = p.id := by
  unfold processChangedRow
  cases h : strTruthy p.coverUrl <;> simp

theorem processChangedRow_cover_of_none (coverDl : String → String → Option String)
    (filesDl : String → String) (p : Row) (h : strTruthy p.coverUrl = none) :
    (processChangedRow coverDl filesDl p).cover_local = p.cover_local := by
  unfold processChangedRow
  rw [h]

theorem foldl_dbStep_forall (coverDl : String → String → Option String)
    (filesDl : String → String) (P : String × Row → Prop) (l : List Row)
    (hl : ∀ p, P (p.id, processChangedRow coverDl filesDl p)) :
    ∀ acc : List (String × Row) × List (String × Int), (∀ kv ∈ acc.1, P kv) →
      ∀ kv ∈ (l.foldl (dbStep coverDl filesDl) acc).1, P kv := by
  induction l with
  | nil => intro acc hacc; simpa using hacc
  | cons p t ih =>
    intro acc hacc
    simp only [List.foldl_cons]
    exact ih (dbStep coverDl filesDl acc p)
      (aupsert_forall P acc.1 p.id (processChangedRow coverDl filesDl p) (hl p) hacc)

theorem foldl_dbStep_mem_of_ne (coverDl : String → String → Option String)
    (filesDl : String → String) (l : List Row) :
    ∀ (acc : List (String × Row) × List (String × Int)) (kv : String × Row),
      kv ∈ acc.1 → (∀ p ∈ l, p.id ≠ kv.1) →
      kv ∈ (l.foldl (dbStep coverDl filesDl) acc).1 := by
  induction l with
  | nil => intro acc kv hm _; simpa using hm
  | cons p t ih =>
    intro acc kv hm hne
    simp only [List.foldl_cons]
    refine ih (dbStep coverDl filesDl acc p) kv ?_ ?_
    · exact mem_aupsert_of_ne acc.1 p.id (processChangedRow coverDl filesDl p) kv
        (fun hh => hne p (List.mem_cons_self _ _) hh.symm) hm
    · exact fun q hq => hne q (List.mem_cons_of_mem _ hq)

theorem foldl_dbStep_alookup_of_notin (coverDl : String → String → Option String)
    (filesDl : String → String) (l : List Row) :
    ∀ (acc : List (String × Row) × List (String × Int)) (k : String),
      (∀ q ∈ l, q.id ≠ k) →
      alookup (l.foldl (dbStep coverDl filesDl) acc).1 k = alookup acc.1 k := by
  induction l with
  | nil => intro acc k _; rfl
  | cons p t ih =>
    intro acc k hne
    simp only [List.foldl_cons]
    rw [ih (dbStep coverDl filesDl acc p) k (fun q hq => hne q (List.mem_cons_of_mem _ hq))]
    exact alookup_aupsert_ne acc.1 p.id k (processChangedRow coverDl filesDl p)
      (fun hh => hne p (List.mem_cons_self _ _) hh.symm)

theorem foldl_dbStep_alookup_last (coverDl : String → String → Option String)
    (filesDl : String → String) (l : List Row) :
    ∀ (acc : List (String × Row) × List (String × Int)) (p : Row),
      p ∈ l → (∀ q ∈ l, q.id = p.id → q = p) →
      alookup (l.foldl (dbStep coverDl filesDl) acc).1 p.id =
        some (processChangedRow coverDl filesDl p) := by
  induction l with
  | nil => intro acc p hp _; simp at hp
  | cons q t ih =>
    intro acc p hp hu
    by_cases hpt : p ∈ t
    · simp only [List.foldl_cons]
      exact ih (dbStep coverDl filesDl acc q) p hpt
        (fun r hr hid => hu r (List.mem_cons_of_mem _ hr) hid)
    · have hpq : p = q := by
        rcases List.mem_cons.mp hp with h | h
        · exact h
        · exact absurd h hpt
      subst hpq
      have hnt : ∀ r ∈ t, r.id ≠ p.id := by
        intro r hr hid
        have := hu r (List.mem_cons_of_mem _ hr) hid
        exact hpt (this ▸ hr)
      simp only [List.foldl_cons]
      rw [foldl_dbStep_alookup_of_notin coverDl filesDl t _ p.id hnt]
      exact alookup_aupsert_self acc.1 p.id (processChangedRow coverDl filesDl p)

theorem stepsFor_no_save (o : Option (List Char)) (mk : List Char → SyncStep)
    (hmk : ∀ i, mk i ≠ SyncStep.save) : SyncStep.save ∉ stepsFor o mk := by
  cases o with
  | none => simp [stepsFor]
  | some i =>
    simp [stepsFor]
    exact fun hh => hmk i hh.symm

theorem runSteps_save_last {σ : Type} (effect : SyncStep → σ → σ)
    (fails : SyncStep → Bool) (pre : List SyncStep) :
    ∀ mem disk : σ, SyncStep.save ∉ pre →
      ((runSteps effect fails (pre ++ [SyncStep.save]) mem disk).1 = none →
        (runSteps effect fails (pre ++ [SyncStep.save]) mem disk).2 = disk) ∧
      (∀ m, (runSteps effect fails (pre ++ [SyncStep.save]) mem disk).1 = some m →
        (runSteps effect fails (pre ++ [SyncStep.save]) mem disk).2 = m) := by
  induction pre with
  | nil =>
    intro mem disk _
    by_cases hf : fails SyncStep.save = true
    · simp [runSteps, hf]
    · simp [runSteps, hf]
  | cons s t ih =>
    intro mem disk hns
    have hs : s ≠ SyncStep.save := fun hh => hns (hh ▸ List.mem_cons_self _ _)
    have hnt : SyncStep.save ∉ t := fun hh => hns (List.mem_cons_of_mem _ hh)
    by_cases hf : fails s = true
    · cases s with
      | save => exact absurd rfl hs
      | pageSync pid outAlias => simp [runSteps, hf]
      | dbSync dbid outName => simp [runSteps, hf]
    · cases s with
      | save => exact absurd rfl hs
      | pageSync pid outAlias =>
        simpa [runSteps, hf] using ih (effect (SyncStep.pageSync pid outAlias) mem) disk hnt
      | dbSync dbid outName =>
        simpa [runSteps, hf] using ih (effect (SyncStep.dbSync dbid outName) mem) disk hnt

theorem foldl_aupsert_forall {β : Type} (P : String × β → Prop) (l : List (String × β)) :
    ∀ acc : List (String × β), (∀ kv ∈ acc, P kv) → (∀ kv ∈ l, P kv) →
      ∀ kv ∈ l.foldl (fun m kv => aupsert m kv.1 kv.2) acc, P kv := by
  induction l with
  | nil => intro acc hacc _; simpa using hacc
  | cons kv0 t ih =>
    intro acc hacc hl
    simp only [List.foldl_cons]
    exact ih _
      (aupsert_forall P acc kv0.1 kv0.2 (hl kv0 (List.mem_cons_self _ _)) hacc)
      (fun x hx => hl x (List.mem_cons_of_mem _ hx))

theorem mkMap_forall {β : Type} (P : String × β → Prop) (l : List (String × β))
    (hl : ∀ kv ∈ l, P kv) : ∀ kv ∈ mkMap l, P kv :=
  foldl_aupsert_forall P l [] (by simp) hl

theorem downloadFileCached_miss_ok (sha1hex : List Nat → String)
    (urlPathname : String → Option String) (now : Int) (buf : List Nat)
    (key u hint : String) (images : List (String × AssetRecord))
    (files : List (String × List Nat))
    (h : alookup images key = none) (hu : u ≠ "") :
    downloadFileCached sha1hex urlPathname now (FetchOutcome.ok buf) key (some u) hint images files =
      ⟨some ("./images/" ++ (hint ++ "-" ++ String.mk ((sha1hex buf).toList.take 12) ++ "." ++ safeExtFromUrl urlPathname u "bin")),
       aupsert images key
         ⟨ "./images/" ++ (hint ++ "-" ++ String.mk ((sha1hex buf).toList.take 12) ++ "." ++ safeExtFromUrl urlPathname u "bin"),
           "sha1:" ++ sha1hex buf, buf.length, now, u⟩,
       if fsExists files ( "images/" ++ (hint ++ "-" ++ String.mk ((sha1hex buf).toList.take 12) ++ "." ++ safeExtFromUrl urlPathname u "bin")) = true
         then files
         else fsWrite files ( "images/" ++ (hint ++ "-" ++ String.mk ((sha1hex buf).toList.take 12) ++ "." ++ safeExtFromUrl urlPathname u "bin")) buf,
       true,
       !(fsExists files ( "images/" ++ (hint ++ "-" ++ String.mk ((sha1hex buf).toList.take 12) ++ "." ++ safeExtFromUrl urlPathname u "bin")))⟩ := by
  unfold downloadFileCached
  simp only [strTruthy, hu, if_neg, h]
  unfold dlFetch
  simp

/-- Claim C1: when the state holds a prior record for the given AssetKey
whose (truthy) localPath still exists on disk, `downloadFileCached` returns
that recorded path, performs no network fetch, writes nothing, and leaves
the state and the image directory untouched — for every `url` argument,
including one different from the record's `last_url`. -/
theorem downloadFileCached_cache_hit (sha1hex : List Nat → String)
    (urlPathname : String → Option String) (now : Int) (outcome : FetchOutcome)
    (key : String) (url : Option String) (hint : String)
    (images : List (String × AssetRecord)) (files : List (String × List Nat))
    (c : AssetRecord) (hc : alookup images key = some c) (hloc : c.loc ≠ "")
    (hdisk : fsExists files (stripDotSlash c.loc) = true) :
    downloadFileCached sha1hex urlPathname now outcome key url hint images files =
      ⟨some c.loc, images, files, false, false⟩ := by
  unfold downloadFileCached
  cases hu : strTruthy url with
  | none => simp [hc, optLocal, strTruthy, hloc]
  | some u =>
    rw [hc]
    simp [hloc, hdisk]

theorem downloadFileCached_cache_hit_witness :
    (downloadFileCached (fun _ => "h0") (fun _ => none) 0 FetchOutcome.networkError
      "block:b1:image" (some "https://files.example/rotated.png") "image"
      [( "block:b1:image", ⟨ "./images/image-abc.png", "sha1:abc", 3, 0, "https://files.example/old.png" ⟩ )]
      [( "images/image-abc.png", [1, 2, 3] )]).ret = some "./images/image-abc.png" :=
  congrArg DlResult.ret (downloadFileCached_cache_hit (fun _ => "h0") (fun _ => none) 0
    FetchOutcome.networkError "block:b1:image" (some "https://files.example/rotated.png") "image"
    [( "block:b1:image", ⟨ "./images/image-abc.png", "sha1:abc", 3, 0, "https://files.example/old.png" ⟩ )]
    [( "images/image-abc.png", [1, 2, 3] )]
    ⟨ "./images/image-abc.png", "sha1:abc", 3, 0, "https://files.example/old.png" ⟩
    (by decide) (by decide) (by decide))

/-- Claim C9: when the prior record's localPath no longer exists on disk and
the call cannot produce a fresh file (the url is falsy, or the fetch returns
a non-ok status or throws), `downloadFileCached` still returns the prior
record's path — which does not currently exist on disk — rather than null,
and leaves the state, the image directory and the record unmodified (the
`fetched` flag records whether a fetch was attempted). -/
theorem downloadFileCached_stale_fallback (sha1hex : List Nat → String)
    (urlPathname : String → Option String) (now : Int) (outcome : FetchOutcome)
    (key : String) (url : Option String) (hint : String)
    (images : List (String × AssetRecord)) (files : List (String × List Nat))
    (c : AssetRecord) (hc : alookup images key = some c) (hloc : c.loc ≠ "")
    (hgone : fsExists files (stripDotSlash c.loc) = false)
    (hnofresh : strTruthy url = none ∨ ∀ b, outcome ≠ FetchOutcome.ok b) :
    downloadFileCached sha1hex urlPathname now outcome key url hint images files =
      ⟨some c.loc, images, files, (strTruthy url).isSome, false⟩ := by
  unfold downloadFileCached
  cases hu : strTruthy url with
  | none => simp [hc, optLocal, strTruthy, hloc]
  | some u =>
    rw [hc]
    have hb : ∀ b, outcome ≠ FetchOutcome.ok b := by
      rcases hnofresh with h | h
      · rw [hu] at h; exact absurd h (by simp)
      · exact h
    cases outcome with
    | ok b => exact absurd rfl (hb b)
    | httpError s => simp [dlFetch, optLocal, strTruthy, hloc, hgone]
    | networkError => simp [dlFetch, optLocal, strTruthy, hloc, hgone]

theorem downloadFileCached_stale_fallback_witness :
    (downloadFileCached (fun _ => "h0") (fun _ => none) 0 (FetchOutcome.httpError 500)
      "page:p1:cover" (some "https://files.example/c.png") "cover"
      [( "page:p1:cover", ⟨ "./images/cover-old.png", "sha1:old", 2, 0, "https://files.example/o.png" ⟩ )]
      []).ret = some "./images/cover-old.png" :=
  congrArg DlResult.ret (downloadFileCached_stale_fallback (fun _ => "h0") (fun _ => none) 0
    (FetchOutcome.httpError 500) "page:p1:cover" (some "https://files.example/c.png") "cover"
    [( "page:p1:cover", ⟨ "./images/cover-old.png", "sha1:old", 2, 0, "https://files.example/o.png" ⟩ )]
    []
    ⟨ "./images/cover-old.png", "sha1:old", 2, 0, "https://files.example/o.png" ⟩
    (by decide) (by decide) (by decide)
    (Or.inr (fun b h => FetchOutcome.noConfusion h)))

/-- Claim C5 counterexample: downloading byte-identical content under two
different AssetKeys with different filename hints (a row cover and a block
image) writes the same bytes to disk twice, under two distinct names — the
second write is a real write, not a no-op — refuting the claim that a
byte-identical file is never written to disk twice. -/
theorem byte_identical_rewrite_cex :
    (downloadFileCached (fun _ => "aaaabbbbccccdddd") (fun _ => some "/x.png") 0
      (FetchOutcome.ok [7, 7]) "page:rowA:cover" (some "https://h/x.png") "cover" [] []).wrote = true ∧
    (downloadFileCached (fun _ => "aaaabbbbccccdddd") (fun _ => some "/x.png") 0
      (FetchOutcome.ok [7, 7]) "block:b9:image" (some "https://h/x.png") "image"
      (downloadFileCached (fun _ => "aaaabbbbccccdddd") (fun _ => some "/x.png") 0
        (FetchOutcome.ok [7, 7]) "page:rowA:cover" (some "https://h/x.png") "cover" [] []).images
      (downloadFileCached (fun _ => "aaaabbbbccccdddd") (fun _ => some "/x.png") 0
        (FetchOutcome.ok [7, 7]) "page:rowA:cover" (some "https://h/x.png") "cover" [] []).files).wrote = true ∧
    alookup
      (downloadFileCached (fun _ => "aaaabbbbccccdddd") (fun _ => some "/x.png") 0
        (FetchOutcome.ok [7, 7]) "block:b9:image" (some "https://h/x.png") "image"
        (downloadFileCached (fun _ => "aaaabbbbccccdddd") (fun _ => some "/x.png") 0
          (FetchOutcome.ok [7, 7]) "page:rowA:cover" (some "https://h/x.png") "cover" [] []).images
        (downloadFileCached (fun _ => "aaaabbbbccccdddd") (fun _ => some "/x.png") 0
          (FetchOutcome.ok [7, 7]) "page:rowA:cover" (some "https://h/x.png") "cover" [] []).files).files
      "images/cover-aaaabbbbcccc.png" = some [7, 7] ∧
    alookup
      (downloadFileCached (fun _ => "aaaabbbbccccdddd") (fun _ => some "/x.png") 0
        (FetchOutcome.ok [7, 7]) "block:b9:image" (some "https://h/x.png") "image"
        (downloadFileCached (fun _ => "aaaabbbbccccdddd") (fun _ => some "/x.png") 0
          (FetchOutcome.ok [7, 7]) "page:rowA:cover" (some "https://h/x.png") "cover" [] []).images
        (downloadFileCached (fun _ => "aaaabbbbccccdddd") (fun _ => some "/x.png") 0
          (FetchOutcome.ok [7, 7]) "page:rowA:cover" (some "https://h/x.png") "cover" [] []).files).files
      "images/image-aaaabbbbcccc.png" = some [7, 7] ∧
    ( "images/cover-aaaabbbbcccc.png" : String) ≠ "images/image-aaaabbbbcccc.png" := by
  decide

/-- Claim C5 (amended): the cache filename is `hint-hash12.ext` and the file
is written only when no file of that exact name exists.  Two downloads of
byte-identical content under two different AssetKeys produce two cache
records whose filenames and hashes share the same content-hash segment; and
when the filename hint and the inferred extension also coincide, the
filenames are identical, the second write is a no-op, and a file of that
exact name is never written twice (with differing hints the same bytes go
to two distinct names, as the counterexample shows). -/
theorem content_dedup_amended (sha1hex : List Nat → String)
    (urlPathname : String → Option String) (now1 now2 : Int) (buf : List Nat)
    (key1 key2 hint u1 u2 : String) (images : List (String × AssetRecord))
    (files : List (String × List Nat))
    (hkeys : key2 ≠ key1)
    (h1 : alookup images key1 = none) (h2 : alookup images key2 = none)
    (hu1 : u1 ≠ "") (hu2 : u2 ≠ "")
    (hext : safeExtFromUrl urlPathname u2 "bin" = safeExtFromUrl urlPathname u1 "bin") :
    (downloadFileCached sha1hex urlPathname now1 (FetchOutcome.ok buf) key1 (some u1) hint images files).ret =
      some ("./images/" ++ (hint ++ "-" ++ String.mk ((sha1hex buf).toList.take 12) ++ "." ++ safeExtFromUrl urlPathname u1 "bin")) ∧
    (downloadFileCached sha1hex urlPathname now2 (FetchOutcome.ok buf) key2 (some u2) hint
      (downloadFileCached sha1hex urlPathname now1 (FetchOutcome.ok buf) key1 (some u1) hint images files).images
      (downloadFileCached sha1hex urlPathname now1 (FetchOutcome.ok buf) key1 (some u1) hint images files).files).ret =
      some ("./images/" ++ (hint ++ "-" ++ String.mk ((sha1hex buf).toList.take 12) ++ "." ++ safeExtFromUrl urlPathname u1 "bin")) ∧
    (downloadFileCached sha1hex urlPathname now2 (FetchOutcome.ok buf) key2 (some u2) hint
      (downloadFileCached sha1hex urlPathname now1 (FetchOutcome.ok buf) key1 (some u1) hint images files).images
      (downloadFileCached sha1hex urlPathname now1 (FetchOutcome.ok buf) key1 (some u1) hint images files).files).wrote = false ∧
    alookup
      (downloadFileCached sha1hex urlPathname now2 (FetchOutcome.ok buf) key2 (some u2) hint
        (downloadFileCached sha1hex urlPathname now1 (FetchOutcome.ok buf) key1 (some u1) hint images files).images
        (downloadFileCached sha1hex urlPathname now1 (FetchOutcome.ok buf) key1 (some u1) hint images files).files).images key1 =
      some ⟨ "./images/" ++ (hint ++ "-" ++ String.mk ((sha1hex buf).toList.take 12) ++ "." ++ safeExtFromUrl urlPathname u1 "bin"),
             "sha1:" ++ sha1hex buf, buf.length, now1, u1⟩ ∧
    alookup
      (downloadFileCached sha1hex urlPathname now2 (FetchOutcome.ok buf) key2 (some u2) hint
        (downloadFileCached sha1hex urlPathname now1 (FetchOutcome.ok buf) key1 (some u1) hint images files).images
        (downloadFileCached sha1hex urlPathname now1 (FetchOutcome.ok buf) key1 (some u1) hint images files).files).images key2 =
      some ⟨ "./images/" ++ (hint ++ "-" ++ String.mk ((sha1hex buf).toList.take 12) ++ "." ++ safeExtFromUrl urlPathname u1 "bin"),
             "sha1:" ++ sha1hex buf, buf.length, now2, u2⟩ ∧
    (downloadFileCached sha1hex urlPathname now1 (FetchOutcome.ok buf) key1 (some u1) hint images files).wrote =
      !(fsExists files ( "images/" ++ (hint ++ "-" ++ String.mk ((sha1hex buf).toList.take 12) ++ "." ++ safeExtFromUrl urlPathname u1 "bin"))) := by
  have hr1 := downloadFileCached_miss_ok sha1hex urlPathname now1 buf key1 u1 hint images files h1 hu1
  set nm := hint ++ "-" ++ String.mk ((sha1hex buf).toList.take 12) ++ "." ++ safeExtFromUrl urlPathname u1 "bin" with hnm
  have h2' : alookup (downloadFileCached sha1hex urlPathname now1 (FetchOutcome.ok buf) key1 (some u1) hint images files).images key2 = none := by
    rw [hr1]
    simp only
    rw [alookup_aupsert_ne images key1 key2 _ hkeys]
    exact h2
  have hr2 := downloadFileCached_miss_ok sha1hex urlPathname now2 buf key2 u2 hint
    (downloadFileCached sha1hex urlPathname now1 (FetchOutcome.ok buf) key1 (some u1) hint images files).images
    (downloadFileCached sha1hex urlPathname now1 (FetchOutcome.ok buf) key1 (some u1) hint images files).files h2' hu2
  have hfs1 : fsExists (downloadFileCached sha1hex urlPathname now1 (FetchOutcome.ok buf) key1 (some u1) hint images files).files ( "images/" ++ nm) = true := by
    rw [hr1]
    simp only
    by_cases hex : fsExists files ( "images/" ++ nm) = true
    · simp [hex]
    · simp only [hex, if_false, Bool.false_eq_true, if_neg]
      simp [fsWrite, fsExists, alookup_aupsert_self]
  refine ⟨?_, ?_, ?_, ?_, ?_, ?_⟩
  · rw [hr1]
  · rw [hr2, hext, hnm]
  · rw [hr2]
    simp only [hext, ← hnm, hfs1]
    simp
  · rw [hr2]
    simp only
    rw [hr1]
    simp only
    rw [alookup_aupsert_ne _ key2 key1 _ (Ne.symm hkeys), alookup_aupsert_self]
  · rw [hr2]
    simp only [hext, ← hnm]
    rw [alookup_aupsert_self]
  · rw [hr1]

theorem content_dedup_amended_witness :
    (downloadFileCached (fun _ => "ffff0000ffff0000ffff") (fun _ => some "/s.bin") 5
      (FetchOutcome.ok [1, 2, 3]) "page:r2:prop:Files:0" (some "https://a/s.bin?sig=2") "file"
      (downloadFileCached (fun _ => "ffff0000ffff0000ffff") (fun _ => some "/s.bin") 4
        (FetchOutcome.ok [1, 2, 3]) "page:r1:prop:Files:0" (some "https://a/s.bin?sig=1") "file" [] []).images
      (downloadFileCached (fun _ => "ffff0000ffff0000ffff") (fun _ => some "/s.bin") 4
        (FetchOutcome.ok [1, 2, 3]) "page:r1:prop:Files:0" (some "https://a/s.bin?sig=1") "file" [] []).files).wrote = false :=
  (content_dedup_amended (fun _ => "ffff0000ffff0000ffff") (fun _ => some "/s.bin") 4 5 [1, 2, 3]
    "page:r1:prop:Files:0" "page:r2:prop:Files:0" "file" "https://a/s.bin?sig=1" "https://a/s.bin?sig=2" [] []
    (by decide) rfl rfl (by decide) (by decide) rfl).2.2.1

/-- Claim C7 counterexample: with the default 5 tries and an operation that
always fails, the delays actually slept are `[250, 500, 1000, 2000]` — four
of them, not five — so the claimed sequence `250, 500, 1000, 2000, 2000` for
attempts 1..5 is wrong; moreover the source's cap is 2500, so the delay its
formula computes after the 5th failure is 2500, not 2000 (and it is never
slept: the 5th failure throws). -/
theorem withRetry_delay_sequence_cex :
    (withRetry (fun i => (Except.error i : Except Nat Unit)) 5).2 = [250, 500, 1000, 2000] ∧
    (withRetry (fun i => (Except.error i : Except Nat Unit)) 5).2 ≠ [250, 500, 1000, 2000, 2000] ∧
    backoffDelay 5 = 2500 ∧ backoffDelay 5 ≠ 2000 := by
  decide

/-- Claim C7 (amended): for the default 5 tries with every attempt failing,
the delay slept after the `n`-th failure, for `n` = 1..4, is
`min(2500, 250 * 2^(n-1))`, i.e. 250, 500, 1000, 2000; the 5th failure
propagates the 5th attempt's error to the caller with no further delay and
no 6th attempt. -/
theorem withRetry_backoff_amended {ε : Type} (err : Nat → ε) :
    withRetry (fun i => (Except.error (err i) : Except ε Unit)) 5 =
      (Except.error (err 4), [backoffDelay 1, backoffDelay 2, backoffDelay 3, backoffDelay 4]) ∧
    [backoffDelay 1, backoffDelay 2, backoffDelay 3, backoffDelay 4] = [250, 500, 1000, 2000] := by
  exact ⟨rfl, by decide⟩

/-- Claim C8 counterexample: an input of 32 `z` characters — not hex —
contains no 32-hex substring and has no hyphen to strip, yet `normalizeId`
accepts it and returns it unchanged instead of the `null` the claim
requires for a non-hex shape: the fallback path checks only the length,
never that the characters are hex. -/
theorem normalizeId_nonhex_cex :
    normalizeId (List.replicate 32 'z') = some (List.replicate 32 'z') ∧
    (List.replicate 32 'z').all isHexChar = false ∧
    (List.replicate 32 'z').length = 32 := by
  decide

/-- Claim C8 (amended): `normalizeId` returns the first 32-hex-character
substring of the trimmed input, lowercased, when one exists; otherwise it
strips all hyphens and accepts the result — lowercased — iff it is exactly
32 characters long (hex membership is not checked on this fallback path);
empty input and `"not-an-id"` yield null. -/
theorem normalizeId_characterization (input : List Char) :
    (input.isEmpty = true → normalizeId input = none) ∧
    (∀ m, findHex32 (jsTrim input) = some m → input.isEmpty = false →
      normalizeId input = some (m.map Char.toLower) ∧ m.length = 32 ∧ m.all isHexChar = true) ∧
    (findHex32 (jsTrim input) = none → input.isEmpty = false →
      normalizeId input =
        (if (stripDashes (jsTrim input)).length = 32
         then some ((stripDashes (jsTrim input)).map Char.toLower)
         else none)) ∧
    normalizeId (String.toList "not-an-id") = none := by
  refine ⟨?_, ?_, ?_, by decide⟩
  · intro h
    simp [normalizeId, h]
  · intro m hm hne
    have hs := findHex32_spec (jsTrim input) m hm
    refine ⟨?_, hs.1, hs.2⟩
    simp [normalizeId, hne, hm, hs.1]
  · intro hm hne
    simp [normalizeId, hne, hm]

/-- Claim C6: in an incremental run with last watermark `w`, the lower bound
`main` passes to the changed-row query is exactly `w` minus 2 minutes, the
server-side `on_or_after` comparison is inclusive — a row is returned iff
its last-modified stamp is on or after the bound — and in particular a row
modified at exactly `w - 2min` is captured. -/
theorem incremental_since_margin_inclusive (w : Int) (rows : List Row) :
    mainSinceISO (some w) false = some (w - 2 * 60 * 1000) ∧
    (∀ r, r ∈ queryDatabaseIncremental rows (mainSinceISO (some w) false) ↔
      (r ∈ rows ∧ w - 2 * 60 * 1000 ≤ r.last_edited_time)) ∧
    (∀ r, r ∈ rows → r.last_edited_time = w - 2 * 60 * 1000 →
      r ∈ queryDatabaseIncremental rows (mainSinceISO (some w) false)) := by
  refine ⟨rfl, ?_, ?_⟩
  · intro r
    simp [mainSinceISO, isoMinusMinutes, queryDatabaseIncremental, lastEditedOnOrAfter,
      List.mem_filter]
  · intro r hr ht
    simp [mainSinceISO, isoMinusMinutes, queryDatabaseIncremental, lastEditedOnOrAfter,
      List.mem_filter, hr, ht]

/-- Claim C4: when a prior PageState exists and the fetched stamp is not
strictly greater, `fetchPageIfChanged` returns null with no block-tree
fetch, no snapshot write and no state update; a strictly greater stamp or a
missing prior state makes the page changed (one tree fetch); and a second
sync with the same metadata — no upstream change — always returns null with
zero tree fetches and zero writes, leaving the state as the first call left
it. -/
theorem fetchPageIfChanged_change_detection (coverResolve : Option String)
    (pageId : String) (meta : PageMeta) (pages : List (String × PageState))
    (images : List (String × AssetRecord)) :
    (∀ prev, alookup pages pageId = some prev →
      ¬ prev.last_edited_time < meta.last_edited_time →
      fetchPageIfChanged coverResolve pageId meta pages images =
        ⟨false, pages, 0, 0, none⟩) ∧
    (alookup pages pageId = none →
      (fetchPageIfChanged coverResolve pageId meta pages images).changed = true ∧
      (fetchPageIfChanged coverResolve pageId meta pages images).treeFetches = 1) ∧
    (∀ prev, alookup pages pageId = some prev →
      prev.last_edited_time < meta.last_edited_time →
      (fetchPageIfChanged coverResolve pageId meta pages images).changed = true ∧
      (fetchPageIfChanged coverResolve pageId meta pages images).treeFetches = 1) ∧
    (∀ (coverResolve2 : Option String) (images2 : List (String × AssetRecord)),
      fetchPageIfChanged coverResolve2 pageId meta
        (fetchPageIfChanged coverResolve pageId meta pages images).pages images2 =
      ⟨false, (fetchPageIfChanged coverResolve pageId meta pages images).pages, 0, 0, none⟩) := by
  refine ⟨?_, ?_, ?_, ?_⟩
  · intro prev hp hlt
    simp [fetchPageIfChanged, hp, hlt]
  · intro hp
    simp [fetchPageIfChanged, hp, fetchPageChanged]
  · intro prev hp hlt
    simp [fetchPageIfChanged, hp, hlt, fetchPageChanged]
  · intro cr2 images2
    by_cases hch : ∃ prev, alookup pages pageId = some prev ∧
        ¬ prev.last_edited_time < meta.last_edited_time
    · obtain ⟨prev, hp, hlt⟩ := hch
      have hP : fetchPageIfChanged coverResolve pageId meta pages images =
          ⟨false, pages, 0, 0, none⟩ := by
        simp [fetchPageIfChanged, hp, hlt]
      rw [hP]
      simp [fetchPageIfChanged, hp, hlt]
    · have hP : ∃ st : PageState, st.last_edited_time = meta.last_edited_time ∧
          (fetchPageIfChanged coverResolve pageId meta pages images).pages =
            aupsert pages pageId st := by
        cases hp : alookup pages pageId with
        | none =>
          refine ⟨⟨meta.last_edited_time,
            strTruthy (pageLocalCover coverResolve meta none images)⟩, rfl, ?_⟩
          simp [fetchPageIfChanged, hp, fetchPageChanged]
        | some prev =>
          have hlt : prev.last_edited_time < meta.last_edited_time := by
            by_contra hn
            exact hch ⟨prev, hp, hn⟩
          refine ⟨⟨meta.last_edited_time,
            strTruthy (pageLocalCover coverResolve meta (some prev) images)⟩, rfl, ?_⟩
          simp [fetchPageIfChanged, hp, hlt, fetchPageChanged]
      obtain ⟨st, hst, hP⟩ := hP
      rw [hP]
      have hl := alookup_aupsert_self pages pageId st
      simp [fetchPageIfChanged, hl, hst]

/-- Claim C2: in full mode every row whose id is absent from the separate
full enumeration (`currentIds`) is removed before persisting — every
persisted row's id is in the enumeration — and concretely a stored snapshot
`{A, B, C}` with full enumeration `{A, C}` persists exactly `{A, C}`; in
incremental mode no row is ever removed: a snapshot row whose id is not in
the changed-row set is persisted unchanged. -/
theorem syncDatabase_full_reconcile_incremental_additive
    (coverDl : String → String → Option String) (filesDl : String → String)
    (changedRows snapshot : List Row) (currentIds : List String)
    (dbItems : List (String × Int)) :
    (∀ r ∈ (syncDatabase coverDl filesDl changedRows snapshot true currentIds dbItems).results,
      r.id ∈ currentIds) ∧
    ((snapshot.map Row.id).Nodup →
      ∀ r ∈ snapshot, r.id ∉ changedRows.map Row.id →
        r ∈ (syncDatabase coverDl filesDl changedRows snapshot false currentIds dbItems).results) ∧
    (syncDatabase (fun _ _ => none) (fun s => s)
      [⟨ "A", 2, none, none, "a2" ⟩, ⟨ "C", 2, none, none, "c2" ⟩]
      [⟨ "A", 1, none, none, "a1" ⟩, ⟨ "B", 1, none, none, "b1" ⟩, ⟨ "C", 1, none, none, "c1" ⟩]
      true
      (fullIdsInDatabase [⟨ "A", 2, none, none, "a2" ⟩, ⟨ "C", 2, none, none, "c2" ⟩])
      []).results.map Row.id = [ "A", "C" ] := by
  refine ⟨?_, ?_, by decide⟩
  · intro r hr
    have hbase : ∀ kv ∈ mkMap (snapshot.map (fun x => (x.id, x))), kv.1 = kv.2.id := by
      refine mkMap_forall _ _ ?_
      intro kv hm
      obtain ⟨x, _, hx⟩ := List.mem_map.mp hm
      rw [← hx]
    have hinv := foldl_dbStep_forall coverDl filesDl (fun kv => kv.1 = kv.2.id) changedRows
      (fun p => (processChangedRow_id coverDl filesDl p).symm)
      (mkMap (snapshot.map (fun x => (x.id, x))), dbItems) hbase
    simp only [syncDatabase, if_pos] at hr
    obtain ⟨kv, hkv, hkvr⟩ := List.mem_map.mp hr
    rw [List.mem_filter] at hkv
    have hid := hinv kv hkv.1
    have hc := of_decide_eq_true hkv.2
    rw [← hkvr, ← hid]
    exact hc
  · intro hnodup r hr hnc
    have hkeys : ((snapshot.map (fun x => (x.id, x))).map Prod.fst).Nodup := by
      simpa [List.map_map, Function.comp] using hnodup
    have hbase : (r.id, r) ∈ mkMap (snapshot.map (fun x => (x.id, x))) := by
      rw [mkMap_self _ hkeys]
      exact List.mem_map.mpr ⟨r, hr, rfl⟩
    have hne : ∀ p ∈ changedRows, p.id ≠ (r.id, r).1 := by
      intro p hp hid
      exact hnc (List.mem_map.mpr ⟨p, hp, hid⟩)
    have hmem := foldl_dbStep_mem_of_ne coverDl filesDl changedRows
      (mkMap (snapshot.map (fun x => (x.id, x))), dbItems) (r.id, r) hbase hne
    simp only [syncDatabase]
    simp only [Bool.false_eq_true, if_false]
    exact List.mem_map.mpr ⟨(r.id, r), hmem, rfl⟩

/-- Claim C10: a changed row is upserted as a wholesale replacement — the
persisted row for its id is exactly the freshly processed row, independent
of the snapshot's prior row — and `cover_local` is grafted only when the
fresh row carries a truthy cover URL: with the cover removed upstream the
processed row's `cover_local` is whatever the fresh API row carried (none),
for every cover resolver and regardless of any record cached under
`page:<rowId>:cover`; unlike page sync, which with no current cover does
fall back to the cached `state.images` cover. -/
theorem syncDatabase_cover_wholesale_replacement
    (coverDl : String → String → Option String) (filesDl : String → String)
    (changedRows snapshot : List Row) (currentIds : List String)
    (dbItems : List (String × Int)) (p : Row) :
    (p ∈ changedRows → (∀ q ∈ changedRows, q.id = p.id → q = p) →
      processChangedRow coverDl filesDl p ∈
        (syncDatabase coverDl filesDl changedRows snapshot false currentIds dbItems).results) ∧
    (strTruthy p.coverUrl = none →
      (processChangedRow coverDl filesDl p).cover_local = p.cover_local) ∧
    (∀ (coverResolve : Option String) (pageId : String) (meta : PageMeta)
        (pages : List (String × PageState)) (images : List (String × AssetRecord)) (l : String),
      alookup pages pageId = none → strTruthy meta.coverUrl = none →
      optLocal (alookup images ("page:" ++ meta.id ++ ":cover")) = some l →
      (fetchPageIfChanged coverResolve pageId meta pages images).cover_local = some l) := by
  refine ⟨?_, ?_, ?_⟩
  · intro hp hu
    have hl := foldl_dbStep_alookup_last coverDl filesDl changedRows
      (mkMap (snapshot.map (fun x => (x.id, x))), dbItems) p hp hu
    have hmem := mem_of_alookup _ _ _ hl
    simp only [syncDatabase, Bool.false_eq_true, if_false]
    exact List.mem_map.mpr ⟨(p.id, processChangedRow coverDl filesDl p), hmem, rfl⟩
  · intro h
    exact processChangedRow_cover_of_none coverDl filesDl p h
  · intro cr pid meta pages images l hpg hcov himg
    simp only [fetchPageIfChanged, hpg, fetchPageChanged, pageLocalCover, hcov]
    simp only [optLocal] at himg
    simp [jsOr, himg]

/-- Claim C3: `main` performs its page and collection syncs first and calls
`saveState` exactly once, as its very last step; consequently a run that
aborts with an uncaught error at any step leaves the on-disk state file —
watermark and per-resource stamps — exactly as the previous successful run
left it (so the next run re-treats the failed resources as still pending),
while a completed run persists exactly the final in-memory state. -/
theorem saveState_once_at_end_crash_safe (cfg : SiteNotionCfg) :
    (∃ pre : List SyncStep, mainSteps cfg = pre ++ [SyncStep.save] ∧ SyncStep.save ∉ pre) ∧
    (∀ (σ : Type) (effect : SyncStep → σ → σ) (fails : SyncStep → Bool) (mem disk : σ),
      ((runSteps effect fails (mainSteps cfg) mem disk).1 = none →
        (runSteps effect fails (mainSteps cfg) mem disk).2 = disk) ∧
      (∀ m, (runSteps effect fails (mainSteps cfg) mem disk).1 = some m →
        (runSteps effect fails (mainSteps cfg) mem disk).2 = m)) := by
  have hpre : SyncStep.save ∉
      stepsFor (normalizeOpt cfg.home_page_id) (fun i => SyncStep.pageSync i "home") ++
      stepsFor (normalizeOpt cfg.intro_page_id) (fun i => SyncStep.pageSync i "introduction") ++
      stepsFor (normalizeOpt cfg.culture_page_id) (fun i => SyncStep.pageSync i "culture") ++
      stepsFor (normalizeOpt cfg.members_db_id) (fun i => SyncStep.dbSync i "members") ++
      stepsFor (normalizeOpt cfg.blog_db_id) (fun i => SyncStep.dbSync i "blog") := by
    intro hmem
    simp only [List.mem_append] at hmem
    rcases hmem with ((((h | h) | h) | h) | h) <;>
      exact absurd h (stepsFor_no_save _ _ (fun i => by simp))
  have hsplit : mainSteps cfg =
      (stepsFor (normalizeOpt cfg.home_page_id) (fun i => SyncStep.pageSync i "home") ++
       stepsFor (normalizeOpt cfg.intro_page_id) (fun i => SyncStep.pageSync i "introduction") ++
       stepsFor (normalizeOpt cfg.culture_page_id) (fun i => SyncStep.pageSync i "culture") ++
       stepsFor (normalizeOpt cfg.members_db_id) (fun i => SyncStep.dbSync i "members") ++
       stepsFor (normalizeOpt cfg.blog_db_id) (fun i => SyncStep.dbSync i "blog")) ++
      [SyncStep.save] := by
    simp [mainSteps, List.append_assoc]
  refine ⟨⟨_, hsplit, hpre⟩, ?_⟩
  intro σ effect fails mem disk
  rw [hsplit]
  exact runSteps_save_last effect fails _ mem disk hpre
